import Mathlib

/-!
Verification of the CortexDev local project analyzer (`cortex-dev-analyzer.py`).

This file gives a shallow embedding of the two core components of the
script — the text/binary classifier `is_text_file` and the tree builder
`build_tree_from_paths` — and proves or refutes the specified properties
about them.

Modelling conventions:
* Python strings are Lean `String`s; Python string comparison is
  code-point lexicographic, embedded as `lexLe` over the character list
  (the built-in `String` order of Lean agrees but does not reduce well,
  so we carry our own executable definition).
* File contents are `Option (List Nat)`: `some bytes` is a readable file
  with the given byte values, `none` is a file whose open/read raises
  `IOError`/`OSError`.
* `pathlib.Path(p).parts`, `.name` and `.suffix` (POSIX flavour, relative
  paths) are embedded as `pathParts`, `pyName` and `pySuffix`.
* Python `dict` (insertion ordered, unique keys) is an association list;
  `dict.setdefault` and item assignment keep the position of an existing
  key and append a missing one, exactly as in CPython.
* `sys.exit` codes appear as the pure function `exitCodeOf` of the
  `is_error` flag, and the three top-level outcomes of `main` as
  `mainExitCode`.
-/

/-! ### Python string comparison (code-point lexicographic) -/

/-- Lexicographic `≤` on character lists by code point; this is exactly
Python's `str.__le__` on the corresponding strings. -/
def lexLe : List Char → List Char → Bool
  | [], _ => true
  | _ :: _, [] => false
  | a :: as, b :: bs =>
    if a.toNat < b.toNat then true
    else if b.toNat < a.toNat then false
    else lexLe as bs

/-- Python string `≤` (code-point lexicographic order). -/
def pyLe (p q : String) : Prop := lexLe p.data q.data = true

instance : DecidableRel pyLe := fun _ _ => inferInstanceAs (Decidable (_ = true))

theorem lexLe_total : ∀ a b : List Char, lexLe a b = true ∨ lexLe b a = true
  | [], _ => Or.inl rfl
  | _ :: _, [] => Or.inr rfl
  | a :: as, b :: bs => by
    by_cases hab : a.toNat < b.toNat
    · exact Or.inl (by simp [lexLe, hab])
    · by_cases hba : b.toNat < a.toNat
      · exact Or.inr (by simp [lexLe, hba, hab])
      · rcases lexLe_total as bs with h | h
        · exact Or.inl (by simp [lexLe, hab, hba, h])
        · exact Or.inr (by simp [lexLe, hab, hba, h])

theorem lexLe_trans : ∀ a b c : List Char,
    lexLe a b = true → lexLe b c = true → lexLe a c = true
  | [], _, _, _, _ => rfl
  | _ :: _, [], _, h, _ => by simp [lexLe] at h
  | _ :: _, _ :: _, [], _, h => by simp [lexLe] at h
  | a :: as, b :: bs, c :: cs, hab, hbc => by
    simp only [lexLe] at hab hbc ⊢
    by_cases h1 : a.toNat < b.toNat
    · by_cases h2 : b.toNat < c.toNat
      · simp [Nat.lt_trans h1 h2]
      · by_cases h3 : c.toNat < b.toNat
        · simp [h2, h3] at hbc
        · have hbc' : b.toNat = c.toNat := Nat.le_antisymm (Nat.le_of_not_lt h3) (Nat.le_of_not_lt h2)
          simp [hbc' ▸ h1]
    · by_cases h1' : b.toNat < a.toNat
      · simp [h1, h1'] at hab
      · have hab' : a.toNat = b.toNat := Nat.le_antisymm (Nat.le_of_not_lt h1') (Nat.le_of_not_lt h1)
        simp only [h1, if_neg, h1', if_false, ite_then_self] at hab
        by_cases h2 : b.toNat < c.toNat
        · simp [hab' ▸ h2]
        · by_cases h3 : c.toNat < b.toNat
          · simp [h2, h3] at hbc
          · simp only [h2, if_neg, h3, if_false, ite_then_self] at hbc
            have := lexLe_trans as bs cs (by simpa using hab) (by simpa using hbc)
            simp [hab' ▸ h2, hab' ▸ h3, this]

theorem lexLe_antisymm : ∀ a b : List Char,
    lexLe a b = true → lexLe b a = true → a = b
  | [], [], _, _ => rfl
  | [], _ :: _, _, h => by simp [lexLe] at h
  | _ :: _, [], h, _ => by simp [lexLe] at h
  | a :: as, b :: bs, hab, hba => by
    simp only [lexLe] at hab hba
    by_cases h1 : a.toNat < b.toNat
    · simp [Nat.lt_asymm h1, Nat.lt_irrefl, h1] at hba
    · by_cases h2 : b.toNat < a.toNat
      · simp [h1, h2] at hab
      · have hv : a.toNat = b.toNat := Nat.le_antisymm (Nat.le_of_not_lt h2) (Nat.le_of_not_lt h1)
        have hchar : a = b := Char.ext (UInt32.toNat.inj hv)
        have htail := lexLe_antisymm as bs (by simpa [h1, h2] using hab) (by simpa [h1, h2] using hba)
        rw [hchar, htail]

instance : IsTotal String pyLe :=
  ⟨fun p q => lexLe_total p.data q.data⟩

instance : IsTrans String pyLe :=
  ⟨fun p q r => lexLe_trans p.data q.data r.data⟩

instance : IsAntisymm String pyLe :=
  ⟨fun p q h h' => by
    cases p with
    | mk pd => cases q with
      | mk qd => exact congrArg String.mk (lexLe_antisymm pd qd h h')⟩

/-! ### Path handling (`pathlib` on POSIX, relative paths) -/

/-- Split a character list on `'/'`; always returns at least one
(possibly empty) segment.  Rejoining the result with `'/'` is the
identity (`joinSegs_splitSl`). -/
def splitSl : List Char → List (List Char)
  | [] => [[]]
  | c :: rest =>
    match splitSl rest with
    | [] => [[c]]
    | seg :: segs => if c = '/' then [] :: seg :: segs else (c :: seg) :: segs

/-- Join segments with `'/'` — the inverse of `splitSl`. -/
def joinSegs : List (List Char) → List Char
  | [] => []
  | [s] => s
  | s :: rest => s ++ '/' :: joinSegs rest

theorem splitSl_ne_nil : ∀ l : List Char, splitSl l ≠ []
  | [] => by simp [splitSl]
  | c :: rest => by
    simp only [splitSl]
    match h : splitSl rest with
    | [] => simp
    | seg :: segs => by_cases hc : c = '/' <;> simp [hc]

theorem joinSegs_splitSl : ∀ l : List Char, joinSegs (splitSl l) = l
  | [] => rfl
  | c :: rest => by
    have ih := joinSegs_splitSl rest
    simp only [splitSl]
    match h : splitSl rest with
    | [] => exact absurd h (splitSl_ne_nil rest)
    | seg :: segs =>
      rw [h] at ih
      by_cases hc : c = '/'
      · subst hc
        simpa [joinSegs] using ih
      · simp only [if_neg hc]
        cases segs with
        | nil => simpa [joinSegs] using congrArg (c :: ·) ih
        | cons s2 ss => simpa [joinSegs] using congrArg (c :: ·) ih

/-- `pathlib.Path(p).parts` for a relative POSIX path: split on `'/'`,
dropping empty segments and `'.'` segments. -/
def pathParts (p : String) : List String :=
  ((splitSl p.data).filter (fun seg => !seg.isEmpty && seg != ['.'])).map String.mk

/-- `pathlib.Path(p).name`: the last component of the path. -/
def pyName (p : String) : String := (pathParts p).getLastD ""

/-- Index of the last `'.'` in a character list (Python `str.rfind('.')`,
with `none` for "not found"). -/
def rfindDot : List Char → Option Nat
  | [] => none
  | c :: rest =>
    match rfindDot rest with
    | some i => some (i + 1)
    | none => if c = '.' then some 0 else none

/-- `pathlib.PurePath.suffix` of a file name: the part from the last dot
on, except when that dot is the first or the last character of the name
(so `".env"` and `"a."` both have suffix `""`). -/
def pySuffix (name : String) : String :=
  match rfindDot name.data with
  | none => ""
  | some i =>
    if 0 < i ∧ i < name.data.length - 1 then String.mk (name.data.drop i) else ""

/-- Python `str.lower` restricted to ASCII, which is all the extension
sets contain. -/
def strLower (s : String) : String := String.mk (s.data.map Char.toLower)

/-- `file_path.suffix.lower()` as computed at the top of `is_text_file`. -/
def fileExt (p : String) : String := strLower (pySuffix (pyName p))

/-! ### The classifier (`is_text_file`) -/

/-- `BINARY_FILE_EXTENSIONS` from the script, verbatim. -/
def BINARY_FILE_EXTENSIONS : List String :=
  [".png", ".jpg", ".jpeg", ".gif", ".bmp", ".ico", ".svg",
   ".zip", ".gz", ".tar", ".rar",
   ".pdf", ".doc", ".docx", ".xls", ".xlsx", ".ppt", ".pptx",
   ".exe", ".dll", ".so", ".o", ".a",
   ".jar", ".class",
   ".mp3", ".wav", ".flac",
   ".mp4", ".mkv", ".avi", ".mov",
   ".ttf", ".woff", ".woff2", ".eot",
   ".db", ".sqlite", ".sqlite3"]

/-- `FORCE_TEXT_FILE_EXTENSIONS` from the script, verbatim. -/
def FORCE_TEXT_FILE_EXTENSIONS : List String :=
  [".json", ".yaml", ".yml", ".md", ".txt", ".log", ".xml", ".ini", ".cfg", ".conf",
   ".py", ".js", ".jsx", ".ts", ".tsx", ".html", ".css", ".scss", ".less",
   ".java", ".cs", ".c", ".cpp", ".h", ".hpp", ".go", ".rb", ".rs", ".sh",
   ".vue", ".svelte", ".toml", ".env"]

/-- The classifier `is_text_file(file_path)`.  `content` stands for the
outcome of `open(file_path, 'rb').read(1024)`'s underlying file:
`some bytes` is the full byte content of a readable file, `none` a file
whose open or read raises `IOError`/`OSError` (the `except` branch). -/
def is_text_file (p : String) (content : Option (List Nat)) : Bool :=
  let file_ext := fileExt p
  if file_ext ∈ FORCE_TEXT_FILE_EXTENSIONS then true
  else if file_ext ∈ BINARY_FILE_EXTENSIONS then false
  else
    match content with
    | none => false
    | some bytes => if (0 : Nat) ∈ bytes.take 1024 then false else true

/-! ### Exit behaviour (`show_message_and_exit` and `__main__`) -/

/-- The exit code chosen by `show_message_and_exit`:
`sys.exit(1 if is_error else 0)`. -/
def exitCodeOf (is_error : Bool) : Nat := if is_error then 1 else 0

/-- The three top-level outcomes of a run of `main` under the
`__main__` guard. -/
inductive RunOutcome where
  | success
  | noFiles
  | fatalError
deriving DecidableEq

/-- The process exit code for each top-level outcome: `main` calls
`show_message_and_exit` with the default `is_error=False` both on
success and when no files were found, and the `except` handler in
`__main__` calls it with `is_error=True`. -/
def mainExitCode : RunOutcome → Nat
  | .success => exitCodeOf false
  | .noFiles => exitCodeOf false
  | .fatalError => exitCodeOf true

/-! ### Claims about the classifier -/

/-- **C1.** A path whose lowercased extension is in the force-text set is
classified text whatever the byte content is — even unreadable files and
files whose first kilobyte contains NUL bytes. -/
theorem c1_force_text_wins (p : String) (content : Option (List Nat))
    (h : fileExt p ∈ FORCE_TEXT_FILE_EXTENSIONS) :
    is_text_file p content = true := by
  simp [is_text_file, h]

/-- Witness for C1: `notes.md` whose first bytes are NUL is still text,
and so is an unreadable `notes.md`. -/
theorem c1_force_text_wins_witness :
    fileExt "notes.md" ∈ FORCE_TEXT_FILE_EXTENSIONS ∧
      is_text_file "notes.md" (some [0, 0, 7]) = true ∧
      is_text_file "notes.md" none = true :=
  ⟨by decide, c1_force_text_wins "notes.md" (some [0, 0, 7]) (by decide),
    c1_force_text_wins "notes.md" none (by decide)⟩

/-- Counterexample to **C2** as stated: `.svg` is *not* in the force-text
set; it sits in the binary set, so a `.svg` file is classified binary
even when its content is plain text. -/
theorem c2_svg_counterexample :
    ".svg" ∉ FORCE_TEXT_FILE_EXTENSIONS ∧
      ".svg" ∈ BINARY_FILE_EXTENSIONS ∧
      fileExt "img.svg" = ".svg" ∧
      is_text_file "img.svg" (some [60, 115, 118, 103, 62]) = false := by
  decide

/-- **C2 (amended).** Every path with extension `.svg` is classified
binary, because `.svg` is listed in the force-binary set (and is absent
from the force-text set), regardless of content. -/
theorem c2_svg_is_binary (p : String) (content : Option (List Nat))
    (h : fileExt p = ".svg") :
    is_text_file p content = false := by
  have h1 : (".svg" : String) ∉ FORCE_TEXT_FILE_EXTENSIONS := by decide
  have h2 : (".svg" : String) ∈ BINARY_FILE_EXTENSIONS := by decide
  simp [is_text_file, h, h1, h2]

/-- Witness for the amended C2. -/
theorem c2_svg_is_binary_witness :
    fileExt "img.svg" = ".svg" ∧ is_text_file "img.svg" (some [60]) = false :=
  ⟨by decide, c2_svg_is_binary "img.svg" (some [60]) (by decide)⟩

/-- **C3.** For a readable file whose extension is in neither list, the
classification is binary iff a NUL byte occurs in the first 1024 bytes. -/
theorem c3_sniff_nul (p : String) (bytes : List Nat)
    (h1 : fileExt p ∉ FORCE_TEXT_FILE_EXTENSIONS)
    (h2 : fileExt p ∉ BINARY_FILE_EXTENSIONS) :
    is_text_file p (some bytes) = false ↔ (0 : Nat) ∈ bytes.take 1024 := by
  simp only [is_text_file, if_neg h1, if_neg h2]
  by_cases h : (0 : Nat) ∈ bytes.take 1024 <;> simp [h]

/-- Witness for C3: the extensionless name `notes` is sniffed; a NUL in
the prefix makes it binary, its absence makes it text. -/
theorem c3_sniff_nul_witness :
    fileExt "notes" ∉ FORCE_TEXT_FILE_EXTENSIONS ∧
      fileExt "notes" ∉ BINARY_FILE_EXTENSIONS ∧
      (is_text_file "notes" (some [104, 0, 105]) = false ↔ (0 : Nat) ∈ [104, 0, 105].take 1024) ∧
      is_text_file "notes" (some [104, 105]) = true :=
  ⟨by decide, by decide,
    c3_sniff_nul "notes" [104, 0, 105] (by decide) (by decide),
    by decide⟩

/-- **C4.** For a file with an unrecognized extension whose open/read
fails, the classifier returns binary (the embedding is total, so no
exception escapes: the `except (IOError, OSError)` branch returns
`False`). -/
theorem c4_read_failure_is_binary (p : String)
    (h1 : fileExt p ∉ FORCE_TEXT_FILE_EXTENSIONS)
    (_h2 : fileExt p ∉ BINARY_FILE_EXTENSIONS) :
    is_text_file p none = false := by
  by_cases h2 : fileExt p ∈ BINARY_FILE_EXTENSIONS <;>
    simp [is_text_file, if_neg h1, h2]

/-- Witness for C4. -/
theorem c4_read_failure_is_binary_witness :
    fileExt "notes" ∉ FORCE_TEXT_FILE_EXTENSIONS ∧
      fileExt "notes" ∉ BINARY_FILE_EXTENSIONS ∧
      is_text_file "notes" none = false :=
  ⟨by decide, by decide, c4_read_failure_is_binary "notes" (by decide) (by decide)⟩

/-- **C10.** A dotfile — a name starting with `'.'` and containing no
further dot — has suffix `""`, so both extension lists are bypassed and
classification falls through to byte sniffing, even though `".env"`
itself is a force-text entry. -/
theorem c10_dotfile_sniffed (p : String) (content : Option (List Nat)) (cs : List Char)
    (hname : (pyName p).data = '.' :: cs) (hnodot : '.' ∉ cs) :
    fileExt p = "" ∧
      ".env" ∈ FORCE_TEXT_FILE_EXTENSIONS ∧
      (is_text_file p content = true ↔
        ∃ bytes, content = some bytes ∧ (0 : Nat) ∉ bytes.take 1024) := by
  have hsuffix : pySuffix (pyName p) = "" := by
    have hr : rfindDot ((pyName p).data) = some 0 := by
      rw [hname]
      have : rfindDot cs = none := by
        clear hname
        induction cs with
        | nil => rfl
        | cons c cs ih =>
          have hc : c ≠ '.' := fun hc => hnodot (hc ▸ List.mem_cons_self c cs)
          have hcs : '.' ∉ cs := fun h => hnodot (List.mem_cons_of_mem c h)
          simp [rfindDot, ih hcs, hc]
      simp [rfindDot, this]
    simp [pySuffix, hr]
  have hext : fileExt p = "" := by simp [fileExt, hsuffix, strLower]
  refine ⟨hext, by decide, ?_⟩
  rw [is_text_file.eq_def]
  simp only [hext]
  have h1 : ("" : String) ∉ FORCE_TEXT_FILE_EXTENSIONS := by decide
  have h2 : ("" : String) ∉ BINARY_FILE_EXTENSIONS := by decide
  simp only [if_neg h1, if_neg h2]
  cases content with
  | none => simp
  | some bytes =>
    by_cases h : (0 : Nat) ∈ bytes.take 1024 <;> simp [h]

/-- Witness for C10: a file literally named `.env` (note: `".env"` is in
the force-text list, yet the file is sniffed) with a NUL byte is
classified binary. -/
theorem c10_dotfile_sniffed_witness :
    (pyName ".env").data = '.' :: ['e', 'n', 'v'] ∧ '.' ∉ ['e', 'n', 'v'] ∧
      fileExt ".env" = "" ∧
      (is_text_file ".env" (some [0]) = true ↔
        ∃ bytes, some [(0 : Nat)] = some bytes ∧ (0 : Nat) ∉ bytes.take 1024) :=
  ⟨by decide, by decide,
    (c10_dotfile_sniffed ".env" (some [0]) ['e', 'n', 'v'] (by decide) (by decide)).1,
    (c10_dotfile_sniffed ".env" (some [0]) ['e', 'n', 'v'] (by decide) (by decide)).2.2⟩

/-! ### Claims about the exit behaviour -/

/-- Counterexample to **C9** as stated: on an unrecoverable top-level
error the process exits with code 1, not 0 (`show_message_and_exit` is
called with `is_error=True` and runs `sys.exit(1 if is_error else 0)`). -/
theorem c9_error_exit_counterexample : mainExitCode RunOutcome.fatalError ≠ 0 := by
  decide

/-- **C9 (amended).** The process exits with code 0 on success and in
the no-files-found case, and with code 1 on an unrecoverable top-level
error (after reporting it). -/
theorem c9_exit_codes :
    mainExitCode RunOutcome.success = 0 ∧
      mainExitCode RunOutcome.noFiles = 0 ∧
      mainExitCode RunOutcome.fatalError = 1 := by
  decide

/-! ### The tree builder (`build_tree_from_paths`)

The intermediate value built by the insertion loop is a Python `dict`
whose values are either nested dicts or `None` ("this segment is a
file").  We embed it as an insertion-ordered association list; `None`
becomes `Node.file`, a nested dict becomes `Node.dir`. -/

/-- A value of the intermediate mapping: `None` (a terminal file marker)
or a nested dict. -/
inductive Node where
  | file : Node
  | dir : List (String × Node) → Node

/-- Python exceptions that the insertion loop can raise. -/
inductive PyErr where
  | typeError
  | attributeError
  | indexError
deriving DecidableEq

/-- Dict lookup (`d[k]` on the first — and only — matching key). -/
def lookupA : List (String × Node) → String → Option Node
  | [], _ => none
  | (k, v) :: rest, key => if k = key then some v else lookupA rest key

/-- Dict assignment `d[key] = v`: replaces in place when the key exists,
appends otherwise — CPython's insertion-order semantics. -/
def setA : List (String × Node) → String → Node → List (String × Node)
  | [], key, v => [(key, v)]
  | (k, w) :: rest, key, v =>
    if k = key then (k, v) :: rest else (k, w) :: setA rest key v

/-- One iteration of the insertion loop of `build_tree_from_paths`:
descend/create nested dicts along `parts[:-1]` via `setdefault` and mark
`parts[-1]` with `None`.  When `setdefault` meets an existing `None`
(a file marker) the Python code binds `node = None` and then either
calls `None.setdefault` (`AttributeError`, when intermediate segments
remain) or assigns `None[last]` (`TypeError`). An empty `parts` tuple
would evaluate `parts[-1]` and raise `IndexError`. -/
def insertParts : List (String × Node) → List String → Except PyErr (List (String × Node))
  | _, [] => .error .indexError
  | es, [last] => .ok (setA es last .file)
  | es, part :: next :: rest =>
    match lookupA es part with
    | some (.dir d) =>
      match insertParts d (next :: rest) with
      | .ok d2 => .ok (setA es part (.dir d2))
      | .error e => .error e
    | some .file => .error (if rest.isEmpty then .typeError else .attributeError)
    | none =>
      match insertParts [] (next :: rest) with
      | .ok d2 => .ok (setA es part (.dir d2))
      | .error e => .error e

/-- The whole insertion loop: `for path in sorted(paths): ...` with the
path list already mapped to `Path(path).parts`. -/
def insertAll : List (List String) → List (String × Node) → Except PyErr (List (String × Node))
  | [], es => .ok es
  | ps :: rest, es =>
    match insertParts es ps with
    | .ok es2 => insertAll rest es2
    | .error e => .error e

/-- A node of the produced JSON tree: `{"key", "title", "type": "file"}`
or `{"key", "title", "type": "folder", "children": [...]}`. -/
inductive TreeNode where
  | file : String → String → TreeNode
  | folder : String → String → List TreeNode → TreeNode

/-- The `key`/`title` comparison used by `sorted(node_dict.items())`:
Python compares the `(name, content)` tuples, which (keys being unique
in a dict) orders by name. -/
def entryLe (a b : String × Node) : Prop := pyLe a.1 b.1

instance : DecidableRel entryLe := fun a b => inferInstanceAs (Decidable (pyLe a.1 b.1))

instance : IsTotal (String × Node) entryLe :=
  ⟨fun a b => lexLe_total a.1.data b.1.data⟩

instance : IsTrans (String × Node) entryLe :=
  ⟨fun a b c hab hbc => lexLe_trans a.1.data b.1.data c.1.data hab hbc⟩

/-- `sorted(node_dict.items())`. -/
def sortEntries (es : List (String × Node)) : List (String × Node) :=
  List.insertionSort entryLe es

/-- `str.replace('\\', '/')` — a per-character substitution, since both
pattern and replacement are single characters. -/
def pyReplaceBS (s : String) : String :=
  String.mk (s.data.map (fun c => if c = '\\' then '/' else c))

/-- `os.path.join(current_path, name) if current_path else name`,
followed by the backslash normalization. -/
def mkKey (cur name : String) : String :=
  pyReplaceBS (if cur = "" then name else cur ++ "/" ++ name)

mutual

/-- Size of an intermediate node, used as a recursion budget. -/
def nodeSize : Node → Nat
  | .file => 1
  | .dir es => 1 + entriesSize es

/-- Size of an intermediate dict. -/
def entriesSize : List (String × Node) → Nat
  | [] => 1
  | (_, v) :: rest => 1 + nodeSize v + entriesSize rest

end

theorem one_le_entriesSize : ∀ es : List (String × Node), 1 ≤ entriesSize es
  | [] => le_refl 1
  | (_, v) :: rest => by simp only [entriesSize]; omega

theorem entriesSize_dir_mem :
    ∀ {es : List (String × Node)} {name : String} {sub : List (String × Node)},
      (name, Node.dir sub) ∈ es → entriesSize sub < entriesSize es
  | [], _, _, h => absurd h (List.not_mem_nil _)
  | (k, v) :: rest, name, sub, h => by
    rcases List.mem_cons.mp h with heq | htail
    · obtain ⟨hk, hv⟩ := Prod.mk.injEq .. ▸ heq
      subst hv
      simp only [entriesSize, nodeSize]
      omega
    · have := entriesSize_dir_mem htail
      simp only [entriesSize]
      omega

/-- The recursive `format_tree` helper, with an explicit recursion-depth
budget so that the definition stays structurally recursive (and hence
kernel-evaluable).  `format_tree` below instantiates the budget with a
provably sufficient bound; `format_tree_eq` recovers the natural
recursion equation. -/
def format_tree_fuel : Nat → List (String × Node) → String → List TreeNode
  | 0, _, _ => []
  | fuel + 1, es, cur =>
    (sortEntries es).map (fun e =>
      match e with
      | (name, Node.file) => TreeNode.file (mkKey cur name) name
      | (name, Node.dir sub) =>
        TreeNode.folder (mkKey cur name) name (format_tree_fuel fuel sub (mkKey cur name)))

/-- `format_tree(node_dict, current_path)`: sort the dict items by name
and emit a `file`/`folder` node per entry, recursing into sub-dicts. -/
def format_tree (node_dict : List (String × Node)) (current_path : String) : List TreeNode :=
  format_tree_fuel (entriesSize node_dict) node_dict current_path

/-- What `format_tree` does to one sorted dict entry. -/
def formatEntry (current_path : String) : String × Node → TreeNode
  | (name, Node.file) => TreeNode.file (mkKey current_path name) name
  | (name, Node.dir sub) =>
    TreeNode.folder (mkKey current_path name) name (format_tree sub (mkKey current_path name))

theorem format_tree_fuel_congr :
    ∀ (f g : Nat) (es : List (String × Node)) (cur : String),
      entriesSize es ≤ f → entriesSize es ≤ g →
      format_tree_fuel f es cur = format_tree_fuel g es cur
  | 0, _, es, _, hf, _ => absurd hf (by have := one_le_entriesSize es; omega)
  | _ + 1, 0, es, _, _, hg => absurd hg (by have := one_le_entriesSize es; omega)
  | f' + 1, g' + 1, es, cur, hf, hg => by
    simp only [format_tree_fuel]
    apply List.map_congr_left
    intro e he
    obtain ⟨name, v⟩ := e
    cases v with
    | file => rfl
    | dir sub =>
      show TreeNode.folder (mkKey cur name) name (format_tree_fuel f' sub (mkKey cur name)) =
        TreeNode.folder (mkKey cur name) name (format_tree_fuel g' sub (mkKey cur name))
      have hmem : (name, Node.dir sub) ∈ es := (List.mem_insertionSort entryLe).mp he
      have hlt := entriesSize_dir_mem hmem
      rw [format_tree_fuel_congr f' g' sub (mkKey cur name) (by omega) (by omega)]

theorem format_tree_eq (es : List (String × Node)) (cur : String) :
    format_tree es cur = (sortEntries es).map (formatEntry cur) := by
  show format_tree_fuel (entriesSize es) es cur = _
  have hpos : 1 ≤ entriesSize es := one_le_entriesSize es
  obtain ⟨n, hn⟩ : ∃ n, entriesSize es = n + 1 := ⟨entriesSize es - 1, by omega⟩
  rw [hn]
  simp only [format_tree_fuel]
  apply List.map_congr_left
  intro e he
  obtain ⟨name, v⟩ := e
  cases v with
  | file => rfl
  | dir sub =>
    show TreeNode.folder (mkKey cur name) name (format_tree_fuel n sub (mkKey cur name)) =
      formatEntry cur (name, Node.dir sub)
    have hmem : (name, Node.dir sub) ∈ es := (List.mem_insertionSort entryLe).mp he
    have hlt := entriesSize_dir_mem hmem
    rw [format_tree_fuel_congr n (entriesSize sub) sub (mkKey cur name) (by omega) (le_refl _)]
    rfl

/-- `build_tree_from_paths`: sort the paths, run the insertion loop,
format the resulting dict.  A Python exception in the loop surfaces as
`.error`. -/
def build_tree_from_paths (paths : List String) : Except PyErr (List TreeNode) :=
  match insertAll ((List.insertionSort pyLe paths).map pathParts) [] with
  | .ok es => .ok (format_tree es "")
  | .error e => .error e

/-! ### Claims about the tree builder: order independence -/

/-- **C5.** `build_tree_from_paths` is order-independent: permuting the
input path list leaves the output (tree or raised error) unchanged,
because the loop runs over `sorted(paths)` and everything after that is
deterministic. -/
theorem c5_order_independent (p1 p2 : List String) (h : p1.Perm p2) :
    build_tree_from_paths p1 = build_tree_from_paths p2 := by
  have hsort : List.insertionSort pyLe p1 = List.insertionSort pyLe p2 :=
    List.eq_of_perm_of_sorted
      ((List.perm_insertionSort pyLe p1).trans (h.trans (List.perm_insertionSort pyLe p2).symm))
      (List.sorted_insertionSort pyLe p1) (List.sorted_insertionSort pyLe p2)
  simp [build_tree_from_paths, hsort]

/-- Witness for C5 at a concrete permutation pair. -/
theorem c5_order_independent_witness :
    (["b.txt", "a/c.txt"] : List String).Perm ["a/c.txt", "b.txt"] ∧
      build_tree_from_paths ["b.txt", "a/c.txt"] = build_tree_from_paths ["a/c.txt", "b.txt"] :=
  ⟨by decide, c5_order_independent ["b.txt", "a/c.txt"] ["a/c.txt", "b.txt"] (by decide)⟩

/-! ### Claims about the tree builder: file/folder name collision -/

/-- Counterexample to **C8** as stated: on the colliding input
`["a", "a/b"]` the builder *does* raise.  `sorted` puts the file path
`"a"` first, its insertion stores the terminal `None` marker, and the
later insertion of `"a/b"` evaluates `None["b"] = None` — a `TypeError`
— so no tree is produced. -/
theorem c8_collision_counterexample :
    build_tree_from_paths ["a", "a/b"] = Except.error PyErr.typeError := by
  rfl

/-! ### Claims about the tree builder: sibling ordering -/

/-- The `title` field of an output node. -/
def TreeNode.titleOf : TreeNode → String
  | .file _ t => t
  | .folder _ t _ => t

mutual

/-- A node whose folder descendants all have title-sorted children. -/
def TreeNode.wellOrdered : TreeNode → Bool
  | .file _ _ => true
  | .folder _ _ cs => nodesOrdered cs

/-- Sibling sequences are ascending by `title` (Python string order)
and each member is recursively well ordered. -/
def nodesOrdered : List TreeNode → Bool
  | [] => true
  | [t] => TreeNode.wellOrdered t
  | a :: b :: rest =>
    lexLe (TreeNode.titleOf a).data (TreeNode.titleOf b).data &&
      TreeNode.wellOrdered a && nodesOrdered (b :: rest)

end

theorem titleOf_formatEntry (cur : String) (e : String × Node) :
    TreeNode.titleOf (formatEntry cur e) = e.1 := by
  obtain ⟨name, v⟩ := e
  cases v <;> rfl

theorem nodesOrdered_map (cur : String) :
    ∀ l : List (String × Node), List.Sorted entryLe l →
      (∀ name sub, (name, Node.dir sub) ∈ l →
        ∀ c : String, nodesOrdered (format_tree sub c) = true) →
      nodesOrdered (l.map (formatEntry cur)) = true
  | [], _, _ => rfl
  | [e], _, hsub => by
    obtain ⟨name, v⟩ := e
    cases v with
    | file => rfl
    | dir sub =>
      show nodesOrdered [formatEntry cur (name, Node.dir sub)] = true
      simp only [nodesOrdered, formatEntry, TreeNode.wellOrdered]
      exact hsub name sub (List.mem_singleton.mpr rfl) (mkKey cur name)
  | e1 :: e2 :: rest, hsorted, hsub => by
    obtain ⟨hrel, htail⟩ := List.sorted_cons.mp hsorted
    have hle : lexLe (TreeNode.titleOf (formatEntry cur e1)).data
        (TreeNode.titleOf (formatEntry cur e2)).data = true := by
      rw [titleOf_formatEntry, titleOf_formatEntry]
      exact hrel e2 (List.mem_cons_self _ _)
    have hwo : TreeNode.wellOrdered (formatEntry cur e1) = true := by
      obtain ⟨name, v⟩ := e1
      cases v with
      | file => rfl
      | dir sub =>
        show TreeNode.wellOrdered
          (TreeNode.folder (mkKey cur name) name (format_tree sub (mkKey cur name))) = true
        simp only [TreeNode.wellOrdered]
        exact hsub name sub (List.mem_cons_self _ _) (mkKey cur name)
    have hrest : nodesOrdered ((e2 :: rest).map (formatEntry cur)) = true :=
      nodesOrdered_map cur (e2 :: rest) htail
        (fun name sub h c => hsub name sub (List.mem_cons_of_mem _ h) c)
    simp only [List.map, nodesOrdered, Bool.and_eq_true] at hrest ⊢
    refine ⟨⟨hle, hwo⟩, ?_⟩
    simpa using hrest

theorem format_tree_ordered (es : List (String × Node)) (cur : String) :
    nodesOrdered (format_tree es cur) = true := by
  rw [format_tree_eq]
  refine nodesOrdered_map cur (sortEntries es) (List.sorted_insertionSort entryLe es) ?_
  intro name sub hmem c
  have hes : (name, Node.dir sub) ∈ es := (List.mem_insertionSort entryLe).mp hmem
  have hlt : entriesSize sub < entriesSize es := entriesSize_dir_mem hes
  exact format_tree_ordered sub c
termination_by entriesSize es
decreasing_by exact hlt

/-- **C6.** Whenever `build_tree_from_paths` produces a tree, the
siblings at every nesting level are ascending by `title` (Python's
lexicographic string order), recursively through every folder's
children: `format_tree` emits each level via `sorted(node_dict.items())`. -/
theorem c6_siblings_sorted (paths : List String) (t : List TreeNode)
    (h : build_tree_from_paths paths = Except.ok t) :
    nodesOrdered t = true := by
  rw [build_tree_from_paths] at h
  cases hall : insertAll ((List.insertionSort pyLe paths).map pathParts) [] with
  | ok es =>
    rw [hall] at h
    cases h
    exact format_tree_ordered es ""
  | error e =>
    rw [hall] at h
    exact Except.noConfusion h

/-- Witness for C6 on the spec's Scenario A input. -/
theorem c6_siblings_sorted_witness :
    build_tree_from_paths ["b.txt", "a/c.txt"] =
      Except.ok [TreeNode.folder "a" "a" [TreeNode.file "a/c.txt" "c.txt"],
        TreeNode.file "b.txt" "b.txt"] ∧
    nodesOrdered [TreeNode.folder "a" "a" [TreeNode.file "a/c.txt" "c.txt"],
        TreeNode.file "b.txt" "b.txt"] = true :=
  ⟨rfl,
    c6_siblings_sorted ["b.txt", "a/c.txt"]
      [TreeNode.folder "a" "a" [TreeNode.file "a/c.txt" "c.txt"],
        TreeNode.file "b.txt" "b.txt"] rfl⟩

/-! ### Leaves of the intermediate dict

A *leaf* of the intermediate mapping is the segment list of one stored
file marker; the insertion loop is characterized by how it changes the
leaf set. -/

mutual

/-- The leaves stored under one node: a file marker contributes the
empty continuation, a sub-dict its leaves. -/
def nodeLeaves : Node → List (List String)
  | .file => [[]]
  | .dir es => entriesLeaves es

/-- All leaves of a dict, each prefixed with the entry name it sits
under. -/
def entriesLeaves : List (String × Node) → List (List String)
  | [] => []
  | (n, v) :: rest => (nodeLeaves v).map (n :: ·) ++ entriesLeaves rest

end

theorem mem_entriesLeaves : ∀ (es : List (String × Node)) (q : List String),
    q ∈ entriesLeaves es ↔ ∃ n v, (n, v) ∈ es ∧ ∃ r, r ∈ nodeLeaves v ∧ q = n :: r
  | [], q => by simp [entriesLeaves]
  | (k, w) :: rest, q => by
    simp only [entriesLeaves, List.mem_append, List.mem_map,
      mem_entriesLeaves rest q, List.mem_cons]
    constructor
    · rintro (⟨r, hr, rfl⟩ | ⟨n, v, hnv, r, hr, rfl⟩)
      · exact ⟨k, w, Or.inl rfl, r, hr, rfl⟩
      · exact ⟨n, v, Or.inr hnv, r, hr, rfl⟩
    · rintro ⟨n, v, hnv | hnv, r, hr, rfl⟩
      · obtain ⟨hn, hv⟩ := Prod.mk.injEq .. ▸ hnv
        subst hn; subst hv
        exact Or.inl ⟨r, hr, rfl⟩
      · exact Or.inr ⟨n, v, hnv, r, hr, rfl⟩

theorem nil_not_mem_entriesLeaves (es : List (String × Node)) :
    [] ∉ entriesLeaves es := by
  rw [mem_entriesLeaves]
  rintro ⟨n, v, _, r, _, h⟩
  exact List.noConfusion h

/-! ### Key lookup, well-formed dicts -/

/-- Does the dict have an entry with this key? -/
def keyMem (k : String) : List (String × Node) → Bool
  | [] => false
  | (k2, _) :: rest => if k2 = k then true else keyMem k rest

theorem lookupA_none_iff : ∀ (es : List (String × Node)) (k : String),
    lookupA es k = none ↔ keyMem k es = false
  | [], k => by simp [lookupA, keyMem]
  | (k2, w) :: rest, k => by
    by_cases h : k2 = k <;> simp [lookupA, keyMem, h, lookupA_none_iff rest k]

mutual

/-- Every dict reachable from this node has pairwise-distinct keys —
true of any value a Python `dict` can take. -/
def Node.wfKeys : Node → Bool
  | .file => true
  | .dir es => entriesWf es

/-- Pairwise-distinct keys, recursively. -/
def entriesWf : List (String × Node) → Bool
  | [] => true
  | (k, v) :: rest => !keyMem k rest && Node.wfKeys v && entriesWf rest

end

theorem entriesWf_cons {k : String} {v : Node} {rest : List (String × Node)}
    (h : entriesWf ((k, v) :: rest) = true) :
    keyMem k rest = false ∧ Node.wfKeys v = true ∧ entriesWf rest = true := by
  simp only [entriesWf, Bool.and_eq_true, Bool.not_eq_true'] at h
  exact ⟨h.1.1, h.1.2, h.2⟩

theorem lookupA_wfKeys : ∀ (es : List (String × Node)) (k : String) (w : Node),
    entriesWf es = true → lookupA es k = some w → Node.wfKeys w = true
  | [], _, _, _, hl => Option.noConfusion hl
  | (k2, v) :: rest, k, w, hwf, hl => by
    obtain ⟨_, hv, hrest⟩ := entriesWf_cons hwf
    by_cases h : k2 = k
    · rw [lookupA, if_pos h] at hl
      cases hl
      exact hv
    · rw [lookupA, if_neg h] at hl
      exact lookupA_wfKeys rest k w hrest hl

theorem mem_entriesLeaves_lookup :
    ∀ (es : List (String × Node)), entriesWf es = true → ∀ (h : String) (t : List String),
      ((h :: t) ∈ entriesLeaves es ↔ ∃ w, lookupA es h = some w ∧ t ∈ nodeLeaves w)
  | [], _, h, t => by simp [entriesLeaves, lookupA]
  | (k, v) :: rest, hwf, h, t => by
    obtain ⟨hkm, _, hrest⟩ := entriesWf_cons hwf
    simp only [entriesLeaves, List.mem_append, List.mem_map, lookupA]
    by_cases hk : k = h
    · subst hk
      simp only [if_pos rfl]
      constructor
      · rintro (⟨r, hr, heq⟩ | hmem)
        · injection heq with hh ht
          exact ⟨v, rfl, ht ▸ hr⟩
        · exfalso
          rw [mem_entriesLeaves_lookup rest hrest k t] at hmem
          obtain ⟨w, hw, -⟩ := hmem
          rw [(lookupA_none_iff rest k).mpr hkm] at hw
          exact Option.noConfusion hw
      · rintro ⟨w, hw, hmemw⟩
        cases hw
        exact Or.inl ⟨t, hmemw, rfl⟩
    · simp only [if_neg hk]
      rw [← mem_entriesLeaves_lookup rest hrest h t]
      constructor
      · rintro (⟨r, hr, heq⟩ | hmem)
        · injection heq with hh ht
          exact absurd hh hk
        · exact hmem
      · exact fun hmem => Or.inr hmem

theorem head_mem_entriesLeaves_cons (k2 : String) (w : Node) (rest : List (String × Node))
    (h : String) (t : List String) :
    ((h :: t) ∈ entriesLeaves ((k2, w) :: rest) ↔
      (h = k2 ∧ t ∈ nodeLeaves w) ∨ (h :: t) ∈ entriesLeaves rest) := by
  simp only [entriesLeaves, List.mem_append, List.mem_map]
  constructor
  · rintro (⟨r, hr, heq⟩ | hmem)
    · injection heq with hh ht
      exact Or.inl ⟨hh.symm, ht ▸ hr⟩
    · exact Or.inr hmem
  · rintro (⟨rfl, hmem⟩ | hmem)
    · exact Or.inl ⟨t, hmem, rfl⟩
    · exact Or.inr hmem

theorem not_mem_entriesLeaves_of_keyMem_false (es : List (String × Node))
    (hwf : entriesWf es = true) (h : String) (t : List String)
    (hkm : keyMem h es = false) : (h :: t) ∉ entriesLeaves es := by
  intro hmem
  rw [mem_entriesLeaves_lookup es hwf h t] at hmem
  obtain ⟨w, hw, -⟩ := hmem
  rw [(lookupA_none_iff es h).mpr hkm] at hw
  exact Option.noConfusion hw

theorem keyMem_setA : ∀ (es : List (String × Node)) (k : String) (v : Node) (h : String),
    keyMem h (setA es k v) = (keyMem h es || decide (k = h))
  | [], k, v, h => by
    simp only [setA, keyMem]
    by_cases hh : k = h <;> simp [hh]
  | (k2, w) :: rest, k, v, h => by
    by_cases hk : k2 = k
    · subst hk
      simp only [setA, if_pos rfl, keyMem]
      by_cases hh : k2 = h <;> simp [hh]
    · simp only [setA, if_neg hk, keyMem]
      by_cases hh : k2 = h <;> simp [hh, keyMem_setA rest k v h]

theorem entriesWf_setA : ∀ (es : List (String × Node)) (k : String) (v : Node),
    entriesWf es = true → Node.wfKeys v = true → entriesWf (setA es k v) = true
  | [], k, v, _, hv => by
    simp [setA, entriesWf, keyMem, hv]
  | (k2, w) :: rest, k, v, hwf, hv => by
    obtain ⟨hkm, hw, hrest⟩ := entriesWf_cons hwf
    by_cases hk : k2 = k
    · subst hk
      simp only [setA, if_pos rfl, entriesWf, Bool.and_eq_true, Bool.not_eq_true']
      exact ⟨⟨hkm, hv⟩, hrest⟩
    · simp only [setA, if_neg hk, entriesWf, Bool.and_eq_true, Bool.not_eq_true']
      refine ⟨⟨?_, hw⟩, entriesWf_setA rest k v hrest hv⟩
      rw [keyMem_setA rest k v k2]
      have hkk : ¬ k = k2 := fun e => hk e.symm
      simp [hkm, hkk]

theorem mem_entriesLeaves_setA :
    ∀ (es : List (String × Node)) (k : String) (v : Node), entriesWf es = true →
      ∀ (h : String) (t : List String),
      ((h :: t) ∈ entriesLeaves (setA es k v) ↔
        if h = k then t ∈ nodeLeaves v else (h :: t) ∈ entriesLeaves es)
  | [], k, v, _, h, t => by
    show (h :: t) ∈ entriesLeaves [(k, v)] ↔ _
    rw [head_mem_entriesLeaves_cons]
    by_cases hh : h = k <;> simp [hh, entriesLeaves]
  | (k2, w) :: rest, k, v, hwf, h, t => by
    obtain ⟨hkm, hw, hrest⟩ := entriesWf_cons hwf
    by_cases hk : k2 = k
    · subst hk
      rw [show setA ((k2, w) :: rest) k2 v = (k2, v) :: rest from by simp [setA]]
      rw [head_mem_entriesLeaves_cons]
      by_cases hh : h = k2
      · subst hh
        have hnot := not_mem_entriesLeaves_of_keyMem_false rest hrest h t hkm
        simp [hnot]
      · simp only [if_neg hh]
        rw [head_mem_entriesLeaves_cons]
        simp [hh]
    · rw [show setA ((k2, w) :: rest) k v = (k2, w) :: setA rest k v from by simp [setA, hk]]
      rw [head_mem_entriesLeaves_cons, mem_entriesLeaves_setA rest k v hrest h t,
        head_mem_entriesLeaves_cons]
      by_cases hh : h = k
      · have hh2 : ¬ h = k2 := by
          rw [hh]
          exact fun e => hk e.symm
        simp only [hh2, false_and, false_or, if_pos hh]
      · simp [hh]

theorem insertParts_wfKeys : ∀ (ps : List String) (es es' : List (String × Node)),
    entriesWf es = true → insertParts es ps = Except.ok es' → entriesWf es' = true
  | [], es, es', _, h => Except.noConfusion h
  | [last], es, es', hwf, h => by
    simp only [insertParts] at h
    cases h
    exact entriesWf_setA es last Node.file hwf rfl
  | p :: next :: rest, es, es', hwf, h => by
    simp only [insertParts] at h
    split at h
    · -- lookupA es p = some (Node.dir d)
      rename_i d hl
      split at h
      · rename_i d2 hins
        cases h
        have hd : entriesWf d = true := lookupA_wfKeys es p (Node.dir d) hwf hl
        have hd2 : entriesWf d2 = true := insertParts_wfKeys (next :: rest) d d2 hd hins
        exact entriesWf_setA es p (Node.dir d2) hwf hd2
      · exact Except.noConfusion h
    · exact Except.noConfusion h
    · -- lookupA es p = none
      split at h
      · rename_i d2 hins
        cases h
        have hd2 : entriesWf d2 = true := insertParts_wfKeys (next :: rest) [] d2 rfl hins
        exact entriesWf_setA es p (Node.dir d2) hwf hd2
      · exact Except.noConfusion h

theorem insertParts_self_mem : ∀ (ps : List String) (es es' : List (String × Node)),
    entriesWf es = true → insertParts es ps = Except.ok es' → ps ∈ entriesLeaves es'
  | [], es, es', _, h => Except.noConfusion h
  | [last], es, es', hwf, h => by
    simp only [insertParts] at h
    cases h
    rw [mem_entriesLeaves_setA es last Node.file hwf last []]
    simp [nodeLeaves]
  | p :: next :: rest, es, es', hwf, h => by
    simp only [insertParts] at h
    split at h
    · rename_i d hl
      split at h
      · rename_i d2 hins
        cases h
        have hd : entriesWf d = true := lookupA_wfKeys es p (Node.dir d) hwf hl
        have hmem := insertParts_self_mem (next :: rest) d d2 hd hins
        rw [mem_entriesLeaves_setA es p (Node.dir d2) hwf p (next :: rest)]
        simpa [nodeLeaves] using hmem
      · exact Except.noConfusion h
    · exact Except.noConfusion h
    · split at h
      · rename_i d2 hins
        cases h
        have hmem := insertParts_self_mem (next :: rest) [] d2 rfl hins
        rw [mem_entriesLeaves_setA es p (Node.dir d2) hwf p (next :: rest)]
        simpa [nodeLeaves] using hmem
      · exact Except.noConfusion h

theorem insertParts_mem_fwd :
    ∀ (ps : List String) (es es' : List (String × Node)) (q : List String),
      entriesWf es = true → insertParts es ps = Except.ok es' → q ∈ entriesLeaves es →
      q ∈ entriesLeaves es' ∨ ∃ ext, ext ≠ [] ∧ q = ps ++ ext
  | ps, es, es', [], _, _, hq => absurd hq (nil_not_mem_entriesLeaves es)
  | [], es, es', h1 :: t, _, h, _ => Except.noConfusion h
  | [last], es, es', h1 :: t, hwf, h, hq => by
    simp only [insertParts] at h
    cases h
    by_cases hh : h1 = last
    · subst hh
      cases t with
      | nil =>
        left
        rw [mem_entriesLeaves_setA es h1 Node.file hwf h1 []]
        simp [nodeLeaves]
      | cons t0 ts =>
        right
        exact ⟨t0 :: ts, List.cons_ne_nil t0 ts, rfl⟩
    · left
      rw [mem_entriesLeaves_setA es last Node.file hwf h1 t, if_neg hh]
      exact hq
  | p :: next :: rest, es, es', h1 :: t, hwf, h, hq => by
    simp only [insertParts] at h
    split at h
    · rename_i d hl
      split at h
      · rename_i d2 hins
        cases h
        have hd : entriesWf d = true := lookupA_wfKeys es p (Node.dir d) hwf hl
        by_cases hh : h1 = p
        · subst hh
          have ht : t ∈ entriesLeaves d := by
            rw [mem_entriesLeaves_lookup es hwf h1 t] at hq
            obtain ⟨w, hw, hmem⟩ := hq
            rw [hl] at hw
            cases hw
            exact hmem
          rcases insertParts_mem_fwd (next :: rest) d d2 t hd hins ht with hin | ⟨ext, hne, heq⟩
          · left
            rw [mem_entriesLeaves_setA es h1 (Node.dir d2) hwf h1 t]
            simpa [nodeLeaves] using hin
          · right
            exact ⟨ext, hne, by rw [heq]; rfl⟩
        · left
          rw [mem_entriesLeaves_setA es p (Node.dir d2) hwf h1 t, if_neg hh]
          exact hq
      · exact Except.noConfusion h
    · exact Except.noConfusion h
    · rename_i hl
      split at h
      · rename_i d2 hins
        cases h
        by_cases hh : h1 = p
        · exfalso
          subst hh
          rw [mem_entriesLeaves_lookup es hwf h1 t] at hq
          obtain ⟨w, hw, -⟩ := hq
          rw [hl] at hw
          exact Option.noConfusion hw
        · left
          rw [mem_entriesLeaves_setA es p (Node.dir d2) hwf h1 t, if_neg hh]
          exact hq
      · exact Except.noConfusion h

theorem insertParts_mem_bwd :
    ∀ (ps : List String) (es es' : List (String × Node)) (q : List String),
      entriesWf es = true → insertParts es ps = Except.ok es' → q ∈ entriesLeaves es' →
      q ∈ entriesLeaves es ∨ q = ps
  | ps, es, es', [], _, h, hq => by
    cases ps with
    | nil => exact Except.noConfusion h
    | cons a l => exact absurd hq (by
        have : ∀ x, insertParts es (a :: l) = Except.ok x → [] ∉ entriesLeaves x :=
          fun x _ => nil_not_mem_entriesLeaves x
        exact this es' h)
  | [], es, es', h1 :: t, _, h, _ => Except.noConfusion h
  | [last], es, es', h1 :: t, hwf, h, hq => by
    simp only [insertParts] at h
    cases h
    rw [mem_entriesLeaves_setA es last Node.file hwf h1 t] at hq
    by_cases hh : h1 = last
    · rw [if_pos hh] at hq
      simp only [nodeLeaves, List.mem_singleton] at hq
      right
      rw [hh, hq]
    · rw [if_neg hh] at hq
      exact Or.inl hq
  | p :: next :: rest, es, es', h1 :: t, hwf, h, hq => by
    simp only [insertParts] at h
    split at h
    · rename_i d hl
      split at h
      · rename_i d2 hins
        cases h
        have hd : entriesWf d = true := lookupA_wfKeys es p (Node.dir d) hwf hl
        rw [mem_entriesLeaves_setA es p (Node.dir d2) hwf h1 t] at hq
        by_cases hh : h1 = p
        · rw [if_pos hh] at hq
          simp only [nodeLeaves] at hq
          rcases insertParts_mem_bwd (next :: rest) d d2 t hd hins hq with hin | heq
          · left
            rw [mem_entriesLeaves_lookup es hwf h1 t]
            exact ⟨Node.dir d, hh ▸ hl, hin⟩
          · right
            rw [hh, heq]
        · rw [if_neg hh] at hq
          exact Or.inl hq
      · exact Except.noConfusion h
    · exact Except.noConfusion h
    · rename_i hl
      split at h
      · rename_i d2 hins
        cases h
        rw [mem_entriesLeaves_setA es p (Node.dir d2) hwf h1 t] at hq
        by_cases hh : h1 = p
        · rw [if_pos hh] at hq
          simp only [nodeLeaves] at hq
          rcases insertParts_mem_bwd (next :: rest) [] d2 t rfl hins hq with hin | heq
          · exact absurd hin (by simp [entriesLeaves])
          · right
            rw [hh, heq]
        · rw [if_neg hh] at hq
          exact Or.inl hq
      · exact Except.noConfusion h

theorem insertAll_wfKeys : ∀ (L : List (List String)) (es es' : List (String × Node)),
    entriesWf es = true → insertAll L es = Except.ok es' → entriesWf es' = true
  | [], es, es', hwf, h => by
    simp only [insertAll] at h
    cases h
    exact hwf
  | ps :: rest, es, es', hwf, h => by
    simp only [insertAll] at h
    split at h
    · rename_i es2 hins
      exact insertAll_wfKeys rest es2 es' (insertParts_wfKeys ps es es2 hwf hins) h
    · exact Except.noConfusion h

theorem insertAll_bwd : ∀ (L : List (List String)) (es es' : List (String × Node))
    (q : List String),
    entriesWf es = true → insertAll L es = Except.ok es' → q ∈ entriesLeaves es' →
    q ∈ entriesLeaves es ∨ q ∈ L
  | [], es, es', q, _, h, hq => by
    simp only [insertAll] at h
    cases h
    exact Or.inl hq
  | ps :: rest, es, es', q, hwf, h, hq => by
    simp only [insertAll] at h
    split at h
    · rename_i es2 hins
      have hwf2 := insertParts_wfKeys ps es es2 hwf hins
      rcases insertAll_bwd rest es2 es' q hwf2 h hq with hin | hmem
      · rcases insertParts_mem_bwd ps es es2 q hwf hins hin with h1 | h2
        · exact Or.inl h1
        · exact Or.inr (h2 ▸ List.mem_cons_self ps rest)
      · exact Or.inr (List.mem_cons_of_mem ps hmem)
    · exact Except.noConfusion h

theorem insertAll_preserve : ∀ (L : List (List String)) (es es' : List (String × Node))
    (q : List String),
    entriesWf es = true → insertAll L es = Except.ok es' → q ∈ entriesLeaves es →
    (∀ ps ∈ L, ∀ ext, ext ≠ [] → q ≠ ps ++ ext) → q ∈ entriesLeaves es'
  | [], es, es', q, _, h, hq, _ => by
    simp only [insertAll] at h
    cases h
    exact hq
  | ps :: rest, es, es', q, hwf, h, hq, hno => by
    simp only [insertAll] at h
    split at h
    · rename_i es2 hins
      have hwf2 := insertParts_wfKeys ps es es2 hwf hins
      rcases insertParts_mem_fwd ps es es2 q hwf hins hq with hin | ⟨ext, hne, heq⟩
      · exact insertAll_preserve rest es2 es' q hwf2 h hin
          (fun ps2 hmem ext2 hne2 => hno ps2 (List.mem_cons_of_mem ps hmem) ext2 hne2)
      · exact absurd heq (hno ps (List.mem_cons_self ps rest) ext hne)
    · exact Except.noConfusion h

theorem insertAll_split_mem :
    ∀ (L1 : List (List String)) (ps : List String) (L2 : List (List String))
      (es es' : List (String × Node)),
      entriesWf es = true → insertAll (L1 ++ ps :: L2) es = Except.ok es' →
      (∀ qs ∈ L2, ∀ ext, ext ≠ [] → ps ≠ qs ++ ext) → ps ∈ entriesLeaves es'
  | [], ps, L2, es, es', hwf, h, hno => by
    simp only [List.nil_append, insertAll] at h
    split at h
    · rename_i es2 hins
      have hwf2 := insertParts_wfKeys ps es es2 hwf hins
      exact insertAll_preserve L2 es2 es' ps hwf2 h (insertParts_self_mem ps es es2 hwf hins) hno
    · exact Except.noConfusion h
  | p0 :: L1, ps, L2, es, es', hwf, h, hno => by
    simp only [List.cons_append, insertAll] at h
    split at h
    · rename_i es2 hins
      exact insertAll_split_mem L1 ps L2 es2 es' (insertParts_wfKeys p0 es es2 hwf hins) h hno
    · exact Except.noConfusion h

/-! ### The leaf set of a well-formed dict has no leaf extending another -/

mutual

theorem nodeLeaves_no_proper_ext : ∀ (w : Node) (t ext : List String),
    Node.wfKeys w = true → t ∈ nodeLeaves w → ext ≠ [] → t ++ ext ∉ nodeLeaves w
  | Node.file, t, ext, _, ht, hne => by
    simp only [nodeLeaves, List.mem_singleton] at ht
    subst ht
    intro hmem
    simp only [nodeLeaves, List.mem_singleton, List.nil_append] at hmem
    exact hne hmem
  | Node.dir es, t, ext, hwf, ht, hne =>
    entriesLeaves_no_proper_ext es t ext hwf ht hne

theorem entriesLeaves_no_proper_ext : ∀ (es : List (String × Node)) (t ext : List String),
    entriesWf es = true → t ∈ entriesLeaves es → ext ≠ [] → t ++ ext ∉ entriesLeaves es
  | es, [], ext, _, ht, _ => absurd ht (nil_not_mem_entriesLeaves es)
  | [], t0 :: t1, ext, _, ht, _ => absurd ht (by simp [entriesLeaves])
  | (k, v) :: rest, t0 :: t1, ext, hwf, ht, hne => by
    obtain ⟨hkm, hv, hrest⟩ := entriesWf_cons hwf
    intro hmem
    rw [List.cons_append] at hmem
    rw [head_mem_entriesLeaves_cons] at ht hmem
    rcases ht with ⟨rfl, ht1⟩ | htr
    · rcases hmem with ⟨-, hm1⟩ | hmr
      · exact nodeLeaves_no_proper_ext v t1 ext hv ht1 hne hm1
      · exact not_mem_entriesLeaves_of_keyMem_false rest hrest t0 (t1 ++ ext) hkm hmr
    · by_cases hk : t0 = k
      · subst hk
        exact not_mem_entriesLeaves_of_keyMem_false rest hrest t0 t1 hkm htr
      · rcases hmem with ⟨he, -⟩ | hmr
        · exact hk he
        · exact entriesLeaves_no_proper_ext rest (t0 :: t1) ext hrest htr hne hmr

end

/-! ### Well-formed relative paths and key reconstruction

The spec's Relative Path contract: forward-slash-delimited, nonempty
segments (no absolute paths, no doubled separators), no `.` segments, and
no backslashes (so the Windows-separator normalization in `format_tree`
is the identity). -/

/-- A single acceptable path segment. -/
def goodSeg (seg : List Char) : Bool :=
  !seg.isEmpty && seg != ['.'] && !seg.contains '\\'

/-- A well-formed Relative Path. -/
def goodPath (p : String) : Bool := (splitSl p.data).all goodSeg

/-- The tail of a `'/'`-join: `joinSegs (s :: rest) = s ++ joinTail rest`. -/
def joinTail : List (List Char) → List Char
  | [] => []
  | s :: rest => '/' :: s ++ joinTail rest

theorem joinSegs_cons : ∀ (s : List Char) (rest : List (List Char)),
    joinSegs (s :: rest) = s ++ joinTail rest
  | s, [] => by simp [joinSegs, joinTail]
  | s, r :: rs => by
    show s ++ '/' :: joinSegs (r :: rs) = s ++ joinTail (r :: rs)
    rw [joinSegs_cons r rs]
    simp [joinTail]

theorem joinSegs_append : ∀ (A C : List (List Char)), A ≠ [] →
    joinSegs (A ++ C) = joinSegs A ++ joinTail C
  | [], _, h => absurd rfl h
  | [a], C, _ => by
    simp only [List.singleton_append, joinSegs_cons, joinSegs]
  | a :: a2 :: A', C, _ => by
    show a ++ '/' :: joinSegs ((a2 :: A') ++ C) = joinSegs (a :: a2 :: A') ++ joinTail C
    rw [joinSegs_append (a2 :: A') C (List.cons_ne_nil a2 A')]
    show a ++ '/' :: (joinSegs (a2 :: A') ++ joinTail C) =
      (a ++ '/' :: joinSegs (a2 :: A')) ++ joinTail C
    simp

theorem joinTail_ne_nil (C : List (List Char)) (h : C ≠ []) : joinTail C ≠ [] := by
  cases C with
  | nil => exact absurd rfl h
  | cons c cs => simp [joinTail]

theorem map_id_of_no_change (l : List Char) (f : Char → Char) (h : ∀ c ∈ l, f c = c) :
    l.map f = l := by
  induction l with
  | nil => rfl
  | cons c cs ih =>
    rw [List.map_cons, h c (List.mem_cons_self c cs),
      ih (fun c2 h2 => h c2 (List.mem_cons_of_mem c h2))]

theorem pyReplaceBS_eq_self (s : String) (h : ∀ c ∈ s.data, ¬ c = '\\') :
    pyReplaceBS s = s := by
  unfold pyReplaceBS
  rw [map_id_of_no_change s.data _ (fun c hc => if_neg (h c hc))]

theorem pathParts_of_good (p : String) (hgood : goodPath p = true) :
    pathParts p = (splitSl p.data).map String.mk := by
  unfold pathParts
  congr 1
  apply List.filter_eq_self.mpr
  intro seg hseg
  have hg : goodSeg seg = true := by
    rw [goodPath, List.all_eq_true] at hgood
    exact hgood seg hseg
  rw [goodSeg, Bool.and_eq_true, Bool.and_eq_true] at hg
  rw [hg.1.1, hg.1.2]
  rfl

theorem string_mk_ne_empty (l : List Char) (h : l ≠ []) : String.mk l ≠ "" := by
  intro he
  apply h
  have := congrArg String.data he
  simpa using this

theorem foldl_mkKey_chars :
    ∀ (segs : List (List Char)) (cur : List Char), cur ≠ [] →
      (∀ c ∈ cur, ¬ c = '\\') → (∀ seg ∈ segs, ∀ c ∈ seg, ¬ c = '\\') →
      (segs.map String.mk).foldl mkKey (String.mk cur) = String.mk (cur ++ joinTail segs)
  | [], cur, _, _, _ => by simp [joinTail]
  | s :: rest, cur, hne, hcur, hsegs => by
    simp only [List.map, List.foldl]
    have hsbs : ∀ c ∈ s, ¬ c = '\\' := hsegs s (List.mem_cons_self s rest)
    have h1 : mkKey (String.mk cur) (String.mk s) = String.mk (cur ++ '/' :: s) := by
      unfold mkKey
      rw [if_neg (string_mk_ne_empty cur hne)]
      have hdata : (String.mk cur ++ "/" ++ String.mk s) = String.mk (cur ++ '/' :: s) := by
        apply String.ext
        simp [String.data_append]
      rw [hdata]
      apply pyReplaceBS_eq_self
      intro c hc
      simp only [List.mem_append, List.mem_cons] at hc
      rcases hc with hc | hc | hc
      · exact hcur c hc
      · rw [hc]
        decide
      · exact hsbs c hc
    rw [h1]
    rw [foldl_mkKey_chars rest (cur ++ '/' :: s) (by simp)
      (by
        intro c hc
        simp only [List.mem_append, List.mem_cons] at hc
        rcases hc with hc | hc | hc
        · exact hcur c hc
        · rw [hc]; decide
        · exact hsbs c hc)
      (fun seg hseg => hsegs seg (List.mem_cons_of_mem s hseg))]
    simp [joinTail]

theorem goodPath_no_bs (p : String) (hgood : goodPath p = true) :
    ∀ seg ∈ splitSl p.data, ∀ c ∈ seg, ¬ c = '\\' := by
  intro seg hseg c hc hbs
  rw [goodPath, List.all_eq_true] at hgood
  have hg := hgood seg hseg
  rw [goodSeg, Bool.and_eq_true] at hg
  have := hg.2
  rw [Bool.not_eq_true'] at this
  have hcm : seg.contains '\\' = true := List.elem_eq_true_of_mem (hbs ▸ hc)
  rw [hcm] at this
  exact Bool.noConfusion this

theorem foldl_mkKey_of_good (p : String) (hgood : goodPath p = true) :
    (pathParts p).foldl mkKey "" = p := by
  rw [pathParts_of_good p hgood]
  cases hs : splitSl p.data with
  | nil => exact absurd hs (splitSl_ne_nil p.data)
  | cons s0 rest =>
    have hall : ∀ seg ∈ splitSl p.data, goodSeg seg = true := by
      rw [goodPath, List.all_eq_true] at hgood
      exact hgood
    have hs0 : goodSeg s0 = true := hall s0 (hs ▸ List.mem_cons_self s0 rest)
    have hs0ne : s0 ≠ [] := by
      rw [goodSeg, Bool.and_eq_true, Bool.and_eq_true] at hs0
      have := hs0.1.1
      rw [Bool.not_eq_true'] at this
      exact fun he => by rw [he] at this; exact Bool.noConfusion this
    have hnobs := goodPath_no_bs p hgood
    rw [hs] at hnobs
    simp only [List.map, List.foldl]
    have h0 : mkKey "" (String.mk s0) = String.mk s0 := by
      unfold mkKey
      rw [if_pos rfl]
      exact pyReplaceBS_eq_self _ (hnobs s0 (List.mem_cons_self s0 rest))
    rw [h0]
    rw [foldl_mkKey_chars rest s0 hs0ne (hnobs s0 (List.mem_cons_self s0 rest))
      (fun seg hseg => hnobs seg (List.mem_cons_of_mem s0 hseg))]
    rw [← joinSegs_cons, ← hs, joinSegs_splitSl]

theorem lexLe_append_self : ∀ (l ext : List Char), lexLe l (l ++ ext) = true
  | [], _ => rfl
  | c :: l', ext => by
    simp only [List.cons_append, lexLe, Nat.lt_irrefl, if_false]
    exact lexLe_append_self l' ext

theorem pathParts_proper_ext_lt (p q : String) (hp : goodPath p = true)
    (hq : goodPath q = true) (ext : List String) (hne : ext ≠ [])
    (heq : pathParts q = pathParts p ++ ext) : pyLe p q ∧ p ≠ q := by
  rw [pathParts_of_good p hp, pathParts_of_good q hq] at heq
  have hinj : Function.Injective String.mk := fun a b h => by injection h
  have htake : (splitSl q.data).take (splitSl p.data).length = splitSl p.data := by
    apply List.map_injective_iff.mpr hinj
    rw [List.map_take, heq]
    have hlen : (splitSl p.data).length = ((splitSl p.data).map String.mk).length := by
      rw [List.length_map]
    rw [hlen, List.take_left]
  have hdrop : (splitSl q.data).drop (splitSl p.data).length ≠ [] := by
    intro hd
    have hde : ((splitSl q.data).drop (splitSl p.data).length).map String.mk = ext := by
      rw [List.map_drop, heq]
      have hlen : (splitSl p.data).length = ((splitSl p.data).map String.mk).length := by
        rw [List.length_map]
      rw [hlen, List.drop_left]
    rw [hd] at hde
    exact hne hde.symm
  obtain ⟨C, hCdef⟩ : ∃ C, (splitSl q.data).drop (splitSl p.data).length = C := ⟨_, rfl⟩
  rw [hCdef] at hdrop
  have hsplit : splitSl q.data = splitSl p.data ++ C := by
    conv_lhs => rw [← List.take_append_drop (splitSl p.data).length (splitSl q.data)]
    rw [htake, hCdef]
  have hqdata : q.data = p.data ++ joinTail C := by
    conv_lhs => rw [← joinSegs_splitSl q.data, hsplit]
    rw [joinSegs_append _ _ (splitSl_ne_nil p.data), joinSegs_splitSl]
  constructor
  · show lexLe p.data q.data = true
    rw [hqdata]
    exact lexLe_append_self p.data _
  · intro hpq
    have hdd : p.data = q.data := by rw [hpq]
    rw [hqdata] at hdd
    have hlen := congrArg List.length hdd
    rw [List.length_append] at hlen
    have hjne := joinTail_ne_nil C hdrop
    cases hjt : joinTail C with
    | nil => exact hjne hjt
    | cons c cs =>
      rw [hjt] at hlen
      simp at hlen

/-- After a successful insertion loop over the sorted path list, every
input path's segment list is a leaf of the final dict: any later path
that could overwrite it would be a proper prefix, hence strictly
smaller, contradicting the sort order. -/
theorem build_leaf_of_mem (paths : List String) (es : List (String × Node)) (p : String)
    (hgood : ∀ r ∈ paths, goodPath r = true)
    (hok : insertAll ((List.insertionSort pyLe paths).map pathParts) [] = Except.ok es)
    (hp : p ∈ paths) : pathParts p ∈ entriesLeaves es := by
  have hpS : p ∈ List.insertionSort pyLe paths := (List.mem_insertionSort pyLe).mpr hp
  obtain ⟨S1, S2, hS⟩ := List.append_of_mem hpS
  have hokL : insertAll (S1.map pathParts ++ pathParts p :: S2.map pathParts) []
      = Except.ok es := by
    rw [← List.map_cons, ← List.map_append, ← hS]
    exact hok
  apply insertAll_split_mem (S1.map pathParts) (pathParts p) (S2.map pathParts) [] es rfl hokL
  intro qs hqs ext hne heq
  obtain ⟨r, hrS2, rfl⟩ := List.mem_map.mp hqs
  have hrS : r ∈ List.insertionSort pyLe paths := by
    rw [hS]
    exact List.mem_append_right S1 (List.mem_cons_of_mem p hrS2)
  have hrpaths : r ∈ paths := (List.mem_insertionSort pyLe).mp hrS
  obtain ⟨hle, hner⟩ :=
    pathParts_proper_ext_lt r p (hgood r hrpaths) (hgood p hp) ext hne heq
  have hsorted : List.Sorted pyLe (List.insertionSort pyLe paths) :=
    List.sorted_insertionSort pyLe paths
  have hpr : pyLe p r := by
    rw [hS] at hsorted
    have hsub : List.Sorted pyLe (p :: S2) :=
      List.Pairwise.sublist (List.sublist_append_right S1 (p :: S2)) hsorted
    exact (List.sorted_cons.mp hsub).1 r hrS2
  exact hner (antisymm hle hpr)

/-- **C8 (amended).** When one well-formed input path's segment list is
a proper prefix of another's (a file name colliding with a folder name
at the same level), `build_tree_from_paths` raises — the sorted
insertion order puts the shorter (file) path first, and the later
insertion runs into its terminal `None` marker (`TypeError`, or
`AttributeError` when intermediate segments remain).  No tree is
produced and nothing is silently overwritten. -/
theorem c8_collision_raises (paths : List String) (p q : String)
    (hgood : ∀ r ∈ paths, goodPath r = true)
    (hp : p ∈ paths) (hq : q ∈ paths) (ext : List String) (hne : ext ≠ [])
    (heq : pathParts q = pathParts p ++ ext) :
    ∃ e, build_tree_from_paths paths = Except.error e := by
  rw [build_tree_from_paths]
  cases hall : insertAll ((List.insertionSort pyLe paths).map pathParts) [] with
  | error e => exact ⟨e, rfl⟩
  | ok es =>
    exfalso
    have h1 := build_leaf_of_mem paths es p hgood hall hp
    have h2 := build_leaf_of_mem paths es q hgood hall hq
    have hwf := insertAll_wfKeys ((List.insertionSort pyLe paths).map pathParts) [] es rfl hall
    exact entriesLeaves_no_proper_ext es (pathParts p) ext hwf h1 hne (heq ▸ h2)

/-- Witness for the amended C8 on the concrete collision `["a", "a/b"]`. -/
theorem c8_collision_raises_witness :
    (∀ r ∈ (["a", "a/b"] : List String), goodPath r = true) ∧
      pathParts "a/b" = pathParts "a" ++ ["b"] ∧
      ∃ e, build_tree_from_paths ["a", "a/b"] = Except.error e :=
  ⟨by decide, by decide,
    c8_collision_raises ["a", "a/b"] "a" "a/b" (by decide)
      (by decide) (by decide) ["b"] (by decide) (by decide)⟩

/-! ### Claims about the tree builder: key round-trip -/

mutual

/-- The `key` values of the file nodes reachable from a node. -/
def TreeNode.fileKeys : TreeNode → List String
  | .file k _ => [k]
  | .folder _ _ cs => fileKeysList cs

/-- The `key` values of all file nodes in a forest, in traversal order. -/
def fileKeysList : List TreeNode → List String
  | [] => []
  | t :: ts => TreeNode.fileKeys t ++ fileKeysList ts

end

mutual

/-- Every `key` value reachable from a node, folders included
(pre-order). -/
def TreeNode.allKeys : TreeNode → List String
  | .file k _ => [k]
  | .folder k _ cs => k :: allKeysList cs

/-- Every `key` value in a forest, folders included. -/
def allKeysList : List TreeNode → List String
  | [] => []
  | t :: ts => TreeNode.allKeys t ++ allKeysList ts

end

theorem mem_fileKeysList : ∀ (ts : List TreeNode) (s : String),
    s ∈ fileKeysList ts ↔ ∃ t, t ∈ ts ∧ s ∈ TreeNode.fileKeys t
  | [], s => by simp [fileKeysList]
  | t :: ts, s => by
    simp only [fileKeysList, List.mem_append, mem_fileKeysList ts s, List.mem_cons]
    constructor
    · rintro (h | ⟨t2, ht2, hs⟩)
      · exact ⟨t, Or.inl rfl, h⟩
      · exact ⟨t2, Or.inr ht2, hs⟩
    · rintro ⟨t2, rfl | ht2, hs⟩
      · exact Or.inl hs
      · exact Or.inr ⟨t2, ht2, hs⟩

theorem mem_fileKeys_format_tree :
    ∀ (es : List (String × Node)) (cur : String) (s : String),
      s ∈ fileKeysList (format_tree es cur) ↔
        ∃ segs, segs ∈ entriesLeaves es ∧ s = segs.foldl mkKey cur
  | es, cur, s => by
    rw [format_tree_eq, mem_fileKeysList]
    constructor
    · rintro ⟨t, htm, hst⟩
      obtain ⟨e, hes, rfl⟩ := List.mem_map.mp htm
      have hees : e ∈ es := (List.mem_insertionSort entryLe).mp hes
      obtain ⟨n, v⟩ := e
      cases v with
      | file =>
        simp only [formatEntry, TreeNode.fileKeys, List.mem_singleton] at hst
        refine ⟨[n], ?_, by simpa using hst⟩
        rw [mem_entriesLeaves]
        exact ⟨n, Node.file, hees, [], by simp [nodeLeaves], rfl⟩
      | dir sub =>
        simp only [formatEntry, TreeNode.fileKeys] at hst
        have hlt := entriesSize_dir_mem hees
        rw [mem_fileKeys_format_tree sub (mkKey cur n) s] at hst
        obtain ⟨segs2, hmem2, rfl⟩ := hst
        refine ⟨n :: segs2, ?_, by simp [List.foldl_cons]⟩
        rw [mem_entriesLeaves]
        exact ⟨n, Node.dir sub, hees, segs2, by simpa [nodeLeaves] using hmem2, rfl⟩
    · rintro ⟨segs, hmem, rfl⟩
      rw [mem_entriesLeaves] at hmem
      obtain ⟨n, v, hnv, r, hr, rfl⟩ := hmem
      refine ⟨formatEntry cur (n, v),
        List.mem_map_of_mem _ ((List.mem_insertionSort entryLe).mpr hnv), ?_⟩
      cases v with
      | file =>
        simp only [nodeLeaves, List.mem_singleton] at hr
        subst hr
        simp [formatEntry, TreeNode.fileKeys]
      | dir sub =>
        simp only [formatEntry, TreeNode.fileKeys]
        have hlt := entriesSize_dir_mem hnv
        rw [mem_fileKeys_format_tree sub (mkKey cur n) _]
        exact ⟨r, by simpa [nodeLeaves] using hr, by simp [List.foldl_cons]⟩
termination_by es => entriesSize es
decreasing_by
  · exact hlt
  · exact hlt

/-- Counterexample to **C7** as stated: on input `["a!b", "a/c"]` (whose
sorted, de-duplicated form is itself), the flattened key sequence is
`["a", "a/c", "a!b"]` — the folder key `"a"` is not an input path, and
even the file-key subsequence `["a/c", "a!b"]` is ordered by per-level
titles, not by full-path lexicographic order (`'!' < '/'`), so neither
flattening equals the sorted input sequence. -/
theorem c7_roundtrip_counterexample :
    build_tree_from_paths ["a!b", "a/c"] =
      Except.ok [TreeNode.folder "a" "a" [TreeNode.file "a/c" "c"],
        TreeNode.file "a!b" "a!b"] ∧
      List.insertionSort pyLe (["a!b", "a/c"] : List String).dedup = ["a!b", "a/c"] ∧
      allKeysList [TreeNode.folder "a" "a" [TreeNode.file "a/c" "c"],
        TreeNode.file "a!b" "a!b"] ≠ ["a!b", "a/c"] ∧
      fileKeysList [TreeNode.folder "a" "a" [TreeNode.file "a/c" "c"],
        TreeNode.file "a!b" "a!b"] ≠ ["a!b", "a/c"] :=
  ⟨rfl, by decide, by decide, by decide⟩

/-- **C7 (amended).** For well-formed input paths, whenever
`build_tree_from_paths` succeeds, the *set* of `key` values of the file
nodes reachable by recursively flattening the tree equals the input
path set (so the file keys are the de-duplicated inputs, though their
traversal order can differ from full-path lexicographic order, and
folder nodes contribute additional keys). -/
theorem c7_fileKeys_roundtrip (paths : List String) (t : List TreeNode)
    (hgood : ∀ p ∈ paths, goodPath p = true)
    (h : build_tree_from_paths paths = Except.ok t) (s : String) :
    s ∈ fileKeysList t ↔ s ∈ paths := by
  rw [build_tree_from_paths] at h
  cases hall : insertAll ((List.insertionSort pyLe paths).map pathParts) [] with
  | error e =>
    rw [hall] at h
    exact Except.noConfusion h
  | ok es =>
    rw [hall] at h
    cases h
    rw [mem_fileKeys_format_tree es "" s]
    constructor
    · rintro ⟨segs, hmem, rfl⟩
      rcases insertAll_bwd ((List.insertionSort pyLe paths).map pathParts) [] es segs rfl
        hall hmem with hin | hL
      · exact absurd hin (by simp [entriesLeaves])
      · obtain ⟨p, hpS, rfl⟩ := List.mem_map.mp hL
        have hppaths : p ∈ paths := (List.mem_insertionSort pyLe).mp hpS
        rw [foldl_mkKey_of_good p (hgood p hppaths)]
        exact hppaths
    · intro hs
      exact ⟨pathParts s, build_leaf_of_mem paths es s hgood hall hs,
        (foldl_mkKey_of_good s (hgood s hs)).symm⟩

/-- Witness for the amended C7 on the spec's Scenario A input. -/
theorem c7_fileKeys_roundtrip_witness :
    (∀ p ∈ (["b.txt", "a/c.txt"] : List String), goodPath p = true) ∧
      (("a/c.txt" : String) ∈ fileKeysList
          [TreeNode.folder "a" "a" [TreeNode.file "a/c.txt" "c.txt"],
            TreeNode.file "b.txt" "b.txt"] ↔
        ("a/c.txt" : String) ∈ (["b.txt", "a/c.txt"] : List String)) :=
  ⟨by decide,
    c7_fileKeys_roundtrip ["b.txt", "a/c.txt"]
      [TreeNode.folder "a" "a" [TreeNode.file "a/c.txt" "c.txt"],
        TreeNode.file "b.txt" "b.txt"]
      (by decide) rfl "a/c.txt"⟩
